import Mathlib

/-!
A shallow embedding of the FAISS vector store implemented in
src/local_faiss_mcp/server.py (class FAISSVectorStore), together with
theorems settling the specification's claims about it.

Modelling conventions:
- Python strings are lists of characters (List Char); str.split() is
  modelled for the ASCII whitespace characters.
- Embedding vectors are lists of rationals; the embedding model is an
  arbitrary function from text to a vector and batch encoding is List.map.
- The faiss.IndexFlatL2 object is the list of stored vectors; search
  computes exact squared euclidean distances, sorts them ascending and
  keeps the first k, pairing each with its positional offset.
- A metadata chunk record (a Python dict literal) is an association list
  from field names to field values, listing exactly the keys the source
  writes, in source order.
- The two persisted files are fields of the store state; save copies the
  in-memory index and metadata into them, and a save failure is an
  exception value (Except.error) as a Python exception would be.
-/

namespace LocalFaiss

/-- The whitespace test of Python str.split(), modelled for the ASCII
whitespace characters (space, tab, newline, carriage return, vertical
tab, form feed). -/
def pyIsSpace (c : Char) : Bool :=
  c = ' ' || c = '\t' || c = '\n' || c = '\r' || c = Char.ofNat 11 || c = Char.ofNat 12

/-- The scanning pass of Python text.split(): collect maximal runs of
non-whitespace characters; acc holds the run being read, reversed. -/
def splitWSAux : List Char → List Char → List (List Char)
  | [], acc => if acc = [] then [] else [acc.reverse]
  | c :: cs, acc =>
    if pyIsSpace c then
      if acc = [] then splitWSAux cs [] else acc.reverse :: splitWSAux cs []
    else splitWSAux cs (c :: acc)

/-- Python text.split(): the whitespace-separated words, empties dropped. -/
def splitWS (cs : List Char) : List (List Char) :=
  splitWSAux cs []

/-- Python ' '.join(words). -/
def joinWords : List (List Char) → List Char
  | [] => []
  | [w] => w
  | w :: x :: ws => w ++ ' ' :: joinWords (x :: ws)

/-- Python range(start, stop, step) for a positive step, with explicit
fuel (rangeStep below passes enough fuel for every positive step). -/
def rangeStepAux (stop step : ℕ) : ℕ → ℕ → List ℕ
  | _, 0 => []
  | start, fuel + 1 =>
    if start < stop then start :: rangeStepAux stop step (start + step) fuel else []

/-- Python range(start, stop, step) for a positive step. -/
def rangeStep (start stop step : ℕ) : List ℕ :=
  rangeStepAux stop step start (stop + 1)

/-- FAISSVectorStore.chunk_text: slide a window of chunk_size words over
the whitespace-tokenized text with stride chunk_size - overlap, rejoin
each window with single spaces, drop empty chunks.  The source gives the
arguments the defaults 500 and 50; ingest passes those values. -/
def chunk_text (text : List Char) (chunk_size overlap : ℕ) : List (List Char) :=
  let words := splitWS text
  ((rangeStep 0 words.length (chunk_size - overlap)).map
      (fun i => joinWords ((words.drop i).take chunk_size))).filter (fun c => !c.isEmpty)

/-- A value stored in a metadata record field. -/
inductive FieldVal where
  | nat (n : ℕ)
  | str (s : List Char)
  deriving DecidableEq, Repr

/-- A metadata chunk record: the dict the source appends to
self.metadata["documents"], as an association list in source order. -/
abbrev Record := List (String × FieldVal)

/-- The dict literal ingest appends for one chunk. -/
def mkChunkRecord (id : ℕ) (source text : List Char) : Record :=
  [("id", FieldVal.nat id), ("source", FieldVal.str source), ("text", FieldVal.str text)]

/-- An embedding vector. -/
abbrev Vec := List ℚ

/-- The embedding model: text to vector (SentenceTransformer.encode on a
one-element batch). -/
abbrev Embedder := List Char → Vec

/-- A reranking model: (query, candidate text) to relevance score. -/
abbrev Reranker := List Char → List Char → ℚ

/-- The in-memory store (index, metadata log) and the content of the two
persisted files. -/
structure StoreState where
  index : List Vec
  documents : List Record
  savedIndex : List Vec
  savedDocuments : List Record
  deriving DecidableEq, Repr

/-- A freshly created store: empty index, empty metadata, nothing on disk. -/
def emptyStore : StoreState :=
  ⟨[], [], [], []⟩

/-- Squared euclidean distance (the IndexFlatL2 metric). -/
def l2sq (u v : Vec) : ℚ :=
  ((u.zip v).map (fun p => (p.1 - p.2) * (p.1 - p.2))).sum

/-- Ascending-by-distance order on (distance, offset) pairs. -/
def distLE (a b : ℚ × ℕ) : Prop := a.1 ≤ b.1

instance : DecidableRel distLE :=
  fun a b => inferInstanceAs (Decidable (a.1 ≤ b.1))

instance : IsTotal (ℚ × ℕ) distLE :=
  ⟨fun a b => le_total a.1 b.1⟩

instance : IsTrans (ℚ × ℕ) distLE :=
  ⟨fun _ _ _ h h2 => le_trans h h2⟩

/-- faiss.IndexFlatL2.search over the stored vectors: pair each stored
vector's squared distance to the query vector with its positional offset,
sort ascending by distance, return the first k pairs. -/
def searchIndex (vecs : List Vec) (qv : Vec) (k : ℕ) : List (ℚ × ℕ) :=
  (List.insertionSort distLE ((vecs.enum).map (fun p => (l2sq qv p.2, p.1)))).take k

/-- One query result dict.  rerank_score models the optional
"rerank_score" key: none when the key is absent. -/
structure QueryResult where
  text : List Char
  source : List Char
  distance : ℚ
  rerank_score : Option ℚ
  deriving DecidableEq, Repr

/-- Read a string field of a record.  Records written by ingest always
contain the looked-up keys with string values, so the default branch is
never reached on stores built by this code. -/
def getStrField (r : Record) (k : String) : List Char :=
  match List.lookup k r with
  | some (FieldVal.str s) => s
  | _ => []

/-- FAISSVectorStore.query.  Returns the result list together with the
number of embedding-model invocations the call performed. -/
def query (emb : Embedder) (st : StoreState) (query_text : List Char) (top_k : ℕ) :
    List QueryResult × ℕ :=
  if st.index.length = 0 then ([], 0)
  else
    let query_embedding := emb query_text
    let pairs := searchIndex st.index query_embedding (min top_k st.index.length)
    ((pairs.filter (fun p => p.2 < st.documents.length)).map
        (fun p => { text := getStrField (st.documents.getD p.2 []) "text",
                    source := getStrField (st.documents.getD p.2 []) "source",
                    distance := p.1,
                    rerank_score := none }), 1)

/-- The dict FAISSVectorStore.ingest returns. -/
inductive IngestResult where
  | failure (error : String)
  | success (chunks_added total_documents : ℕ)
  deriving DecidableEq, Repr

instance {ε α : Type} [DecidableEq ε] [DecidableEq α] : DecidableEq (Except ε α) :=
  fun a b =>
    match a, b with
    | Except.error e, Except.error f => decidable_of_iff (e = f) (by simp)
    | Except.error _, Except.ok _ => isFalse (by simp)
    | Except.ok _, Except.error _ => isFalse (by simp)
    | Except.ok u, Except.ok v => decidable_of_iff (u = v) (by simp)

/-- FAISSVectorStore.ingest.  saveOk says whether the save step succeeds
(faiss.write_index or json.dump may raise); on a save failure the
exception propagates as Except.error after the in-memory appends have
happened, with the persisted data unchanged (the failure is modelled at
the first write). -/
def ingest (emb : Embedder) (saveOk : Bool) (st : StoreState)
    (document source : List Char) : Except String IngestResult × StoreState :=
  let chunks := chunk_text document 500 50
  if chunks = [] then
    (Except.ok (IngestResult.failure "No chunks created from document"), st)
  else
    let embeddings := chunks.map emb
    let index' := st.index ++ embeddings
    let documents' := st.documents ++
      chunks.enum.map (fun p => mkChunkRecord (st.documents.length + p.1) source p.2)
    if saveOk then
      (Except.ok (IngestResult.success chunks.length documents'.length),
        { index := index', documents := documents',
          savedIndex := index', savedDocuments := documents' })
    else
      (Except.error "save failed",
        { index := index', documents := documents',
          savedIndex := st.savedIndex, savedDocuments := st.savedDocuments })

/-- Run a sequence of ingest calls (with successful saves) from a fresh
store. -/
def ingestAll (emb : Embedder) (calls : List (List Char × List Char)) : StoreState :=
  calls.foldl (fun st c => (ingest emb true st c.1 c.2).2) emptyStore

/-- The positional-alignment invariant: the index and the metadata log
have the same length, and every record's id field equals its offset in
the log. -/
def aligned (st : StoreState) : Prop :=
  st.index.length = st.documents.length ∧
  ∀ j ∈ List.range st.documents.length,
    List.lookup "id" (st.documents.getD j []) = some (FieldVal.nat j)

instance (st : StoreState) : Decidable (aligned st) :=
  inferInstanceAs (Decidable (_ ∧ ∀ j ∈ List.range st.documents.length, _ = _))

/-- A persisted faiss index file: its stored dimension and vectors. -/
structure PersistedIndex where
  d : ℕ
  vecs : List Vec
  deriving DecidableEq, Repr

/-- The ValueError message raised on a dimension mismatch. -/
def dimMismatchMsg (indexDim modelDim : ℕ) : List Char :=
  "Existing index dimension (".data ++ Nat.toDigits 10 indexDim ++
  ") does not match embedding model dimension (".data ++ Nat.toDigits 10 modelDim ++
  "). Please use a different index directory or the same embedding model.".data

/-- FAISSVectorStore.__init__: measure the embedding dimension by encoding
the probe string "test"; load the persisted index if present and raise a
ValueError if its stored dimension differs from the model's, else create
an empty index; load the persisted metadata if present, else start with an
empty log. -/
def initStore (emb : Embedder) (persistedIndex : Option PersistedIndex)
    (persistedDocuments : Option (List Record)) : Except (List Char) StoreState :=
  let dimension := (emb "test".data).length
  match persistedIndex with
  | some pi =>
    if pi.d ≠ dimension then Except.error (dimMismatchMsg pi.d dimension)
    else Except.ok { index := pi.vecs, documents := persistedDocuments.getD [],
                     savedIndex := pi.vecs, savedDocuments := persistedDocuments.getD [] }
  | none =>
    Except.ok { index := [], documents := persistedDocuments.getD [],
                savedIndex := [], savedDocuments := persistedDocuments.getD [] }

/-- Descending-by-rerank-score order on query results. -/
def rerankGE (a b : QueryResult) : Prop :=
  b.rerank_score.getD 0 ≤ a.rerank_score.getD 0

instance : DecidableRel rerankGE :=
  fun a b => inferInstanceAs (Decidable (b.rerank_score.getD 0 ≤ a.rerank_score.getD 0))

instance : IsTotal QueryResult rerankGE :=
  ⟨fun a b => le_total (b.rerank_score.getD 0) (a.rerank_score.getD 0)⟩

instance : IsTrans QueryResult rerankGE :=
  ⟨fun _ _ _ h h2 => le_trans h2 h⟩

/-- Ascending-by-distance order on query results. -/
def resultDistLE (a b : QueryResult) : Prop :=
  a.distance ≤ b.distance

/-- Modelled from the spec: the optional Reranker configuration and the
reranking pass of FAISSVectorStore.query are exercised by
tests/test_reranking.py, but the code implementing them is not under src/
(the src query has no reranking branch).  Following the spec: when a
reranker is configured, recompute relevance of every retrieved candidate
against the raw query text, attach rerank_score to each result and
re-sort by rerank_score descending; with no reranker, return the src
query's results unchanged.  The retrieval itself is the src query. -/
def queryR (emb : Embedder) (reranker : Option Reranker) (st : StoreState)
    (query_text : List Char) (top_k : ℕ) : List QueryResult :=
  let results := (query emb st query_text top_k).1
  match reranker with
  | none => results
  | some rr =>
    List.insertionSort rerankGE
      (results.map (fun r => { r with rerank_score := some (rr query_text r.text) }))

/-- Ceiling division, the length of range(0, a, b) for positive b. -/
def ceilDiv (a b : ℕ) : ℕ :=
  (a + b - 1) / b

/-- The chunk sequence as the spec words it: the windows words[i .. i+S)
for i = k * (S - O), k = 0, 1, 2, ... while i stays below the number of
words, each window rejoined with single spaces, in order of increasing i. -/
def chunkWindows (text : List Char) (S O : ℕ) : List (List Char) :=
  let words := splitWS text
  (List.range (ceilDiv words.length (S - O))).map
    (fun k => joinWords ((words.drop (k * (S - O))).take S))

/-- A concrete embedder used by the witness theorems. -/
def witEmb : Embedder := fun t => [(t.length : ℚ)]

/-- A concrete reranker used by the witness theorems. -/
def witRer : Reranker := fun q c => ((q.length * c.length : ℕ) : ℚ)

/-- A concrete embedder of dimension 768 used by the witness theorems. -/
def emb768 : Embedder := fun _ => List.replicate 768 (0 : ℚ)

/-- A concrete aligned three-chunk store used by the witness theorems. -/
def witStore : StoreState :=
  { index := [[0], [1], [2]],
    documents := [mkChunkRecord 0 "a".data "t0".data, mkChunkRecord 1 "a".data "t1".data,
      mkChunkRecord 2 "a".data "t2".data],
    savedIndex := [[0], [1], [2]],
    savedDocuments := [mkChunkRecord 0 "a".data "t0".data, mkChunkRecord 1 "a".data "t1".data,
      mkChunkRecord 2 "a".data "t2".data] }

theorem splitWSAux_mem (cs : List Char) :
    ∀ acc, (∀ c ∈ acc, pyIsSpace c = false) →
      ∀ w ∈ splitWSAux cs acc, w ≠ [] ∧ ∀ c ∈ w, pyIsSpace c = false := by
  induction cs with
  | nil =>
    intro acc hacc w hw
    by_cases h : acc = []
    · simp [splitWSAux, h] at hw
    · simp [splitWSAux, h] at hw
      subst hw
      refine ⟨by simpa using h, ?_⟩
      intro c hc
      exact hacc c (List.mem_reverse.mp hc)
  | cons c cs ih =>
    intro acc hacc w hw
    by_cases hsp : pyIsSpace c = true
    · by_cases h : acc = []
      · simp [splitWSAux, hsp, h] at hw
        exact ih [] (by simp) w hw
      · simp [splitWSAux, hsp, h] at hw
        rcases hw with hw | hw
        · subst hw
          exact ⟨by simpa using h, fun c hc => hacc c (List.mem_reverse.mp hc)⟩
        · exact ih [] (by simp) w hw
    · simp [splitWSAux, hsp] at hw
      refine ih (c :: acc) ?_ w hw
      intro c' hc'
      rcases List.mem_cons.mp hc' with h | h
      · subst h
        simpa using hsp
      · exact hacc c' h

theorem splitWSAux_eq_nil_iff (cs : List Char) :
    ∀ acc, (splitWSAux cs acc = [] ↔ acc = [] ∧ ∀ c ∈ cs, pyIsSpace c = true) := by
  induction cs with
  | nil =>
    intro acc
    by_cases h : acc = [] <;> simp [splitWSAux, h]
  | cons c cs ih =>
    intro acc
    by_cases hsp : pyIsSpace c = true
    · by_cases h : acc = []
      · simp [splitWSAux, hsp, h, ih []]
      · simp [splitWSAux, hsp, h]
    · simp [splitWSAux, hsp, ih (c :: acc)]

theorem mem_splitWS {cs w : List Char} (hw : w ∈ splitWS cs) :
    w ≠ [] ∧ ∀ c ∈ w, pyIsSpace c = false :=
  splitWSAux_mem cs [] (by simp) w hw

theorem splitWS_eq_nil_iff (cs : List Char) :
    splitWS cs = [] ↔ ∀ c ∈ cs, pyIsSpace c = true := by
  simpa [splitWS] using splitWSAux_eq_nil_iff cs []

theorem ceilDiv_zero_left (b : ℕ) : ceilDiv 0 b = 0 := by
  rcases Nat.eq_zero_or_pos b with hb | hb
  · simp [ceilDiv, hb]
  · simp only [ceilDiv, Nat.zero_add]
    exact Nat.div_eq_of_lt (by omega)

theorem ceilDiv_rec (a b : ℕ) (hb : 0 < b) (ha : 0 < a) :
    ceilDiv a b = ceilDiv (a - b) b + 1 := by
  rcases le_or_lt a b with h | h
  · have h1 : a - b = 0 := by omega
    rw [h1, ceilDiv_zero_left]
    show (a + b - 1) / b = 1
    exact Nat.div_eq_of_lt_le (by omega) (by omega)
  · show (a + b - 1) / b = (a - b + b - 1) / b + 1
    have h2 : a + b - 1 = (a - b + b - 1) + b := by omega
    rw [h2, Nat.add_div_right _ hb]

theorem rangeStepAux_eq (stop step : ℕ) (hstep : 0 < step) :
    ∀ fuel start, stop - start ≤ fuel →
      rangeStepAux stop step start fuel =
        (List.range (ceilDiv (stop - start) step)).map (fun k => start + k * step) := by
  intro fuel
  induction fuel with
  | zero =>
    intro start h
    have h0 : stop - start = 0 := by omega
    simp [rangeStepAux, h0, ceilDiv_zero_left]
  | succ fuel ih =>
    intro start h
    by_cases hlt : start < stop
    · have lhs : rangeStepAux stop step start (fuel + 1) =
          start :: rangeStepAux stop step (start + step) fuel := by
        simp [rangeStepAux, hlt]
      have h2 : stop - start - step = stop - (start + step) := by omega
      rw [lhs, ih (start + step) (by omega),
        ceilDiv_rec (stop - start) step hstep (by omega), h2,
        List.range_succ_eq_map, List.map_cons, List.map_map]
      refine congrArg₂ List.cons (by simp) ?_
      refine (List.map_congr_left ?_).symm
      intro a _
      simp only [Function.comp_apply]
      have := Nat.succ_mul a step
      omega
    · have h0 : stop - start = 0 := by omega
      simp [rangeStepAux, hlt, h0, ceilDiv_zero_left]

theorem rangeStep_eq (start stop step : ℕ) (hstep : 0 < step) :
    rangeStep start stop step =
      (List.range (ceilDiv (stop - start) step)).map (fun k => start + k * step) :=
  rangeStepAux_eq stop step hstep (stop + 1) start (by omega)

theorem mul_lt_of_lt_ceilDiv {n step k : ℕ} (hstep : 0 < step) (hk : k < ceilDiv n step) :
    k * step < n := by
  have h2 : (k + 1) * step ≤ n + step - 1 := (Nat.le_div_iff_mul_le hstep).mp hk
  have h3 : (k + 1) * step = k * step + step := Nat.succ_mul k step
  omega

theorem joinWords_cons (w : List Char) (t : List (List Char)) :
    ∃ r, joinWords (w :: t) = w ++ r := by
  cases t with
  | nil => exact ⟨[], by simp [joinWords]⟩
  | cons x ws => exact ⟨' ' :: joinWords (x :: ws), rfl⟩

theorem window_cons {words : List (List Char)} {i S : ℕ}
    (hi : i < words.length) (hS : 0 < S) :
    ∃ t, (words.drop i).take S = words[i] :: t ∧ words[i] ∈ words := by
  obtain ⟨S', rfl⟩ : ∃ S', S = S' + 1 := ⟨S - 1, by omega⟩
  exact ⟨List.take S' (words.drop (i + 1)),
    by rw [List.drop_eq_getElem_cons hi, List.take_succ_cons], List.getElem_mem hi⟩

theorem chunk_text_eq_chunkWindows (text : List Char) (S O : ℕ) (hOS : O < S) :
    chunk_text text S O = chunkWindows text S O := by
  have hstep : 0 < S - O := by omega
  have hS : 0 < S := by omega
  simp only [chunk_text, chunkWindows]
  rw [rangeStep_eq 0 (splitWS text).length (S - O) hstep]
  simp only [Nat.sub_zero, List.map_map]
  rw [List.filter_eq_self.mpr ?keep]
  · refine List.map_congr_left ?_
    intro k _
    simp
  case keep =>
    intro a ha
    rcases List.mem_map.mp ha with ⟨k, hk, rfl⟩
    have hkm : k * (S - O) < (splitWS text).length :=
      mul_lt_of_lt_ceilDiv hstep (List.mem_range.mp hk)
    simp only [Function.comp_apply, Nat.zero_add]
    obtain ⟨t, hwin, hmem⟩ := window_cons hkm hS
    rw [hwin]
    obtain ⟨r, hjoin⟩ := joinWords_cons _ t
    rw [hjoin]
    have hnil := (mem_splitWS hmem).1
    simp [hnil]

@[simp]
theorem lookup_id_mkChunkRecord (i : ℕ) (s t : List Char) :
    List.lookup "id" (mkChunkRecord i s t) = some (FieldVal.nat i) := rfl

@[simp]
theorem lookup_indexed_at_mkChunkRecord (i : ℕ) (s t : List Char) :
    List.lookup "indexed_at" (mkChunkRecord i s t) = none := rfl

theorem aligned_emptyStore : aligned emptyStore := by
  decide

theorem ingest_snd (emb : Embedder) (saveOk : Bool) (st : StoreState) (doc src : List Char) :
    ((ingest emb saveOk st doc src).2).index
      = st.index ++ (chunk_text doc 500 50).map emb ∧
    ((ingest emb saveOk st doc src).2).documents
      = st.documents ++ (chunk_text doc 500 50).enum.map
          (fun p => mkChunkRecord (st.documents.length + p.1) src p.2) := by
  by_cases hc : chunk_text doc 500 50 = []
  · simp [ingest, hc]
  · cases saveOk <;> simp [ingest, hc]

theorem aligned_ingest (emb : Embedder) (saveOk : Bool) (st : StoreState)
    (doc src : List Char) (h : aligned st) :
    aligned ((ingest emb saveOk st doc src).2) := by
  obtain ⟨hidx, hdocs⟩ := ingest_snd emb saveOk st doc src
  constructor
  · rw [hidx, hdocs]
    simp [h.1]
  · intro j hj
    rw [hdocs] at hj ⊢
    have hjlt : j < st.documents.length + (chunk_text doc 500 50).length := by
      simpa using List.mem_range.mp hj
    by_cases hlt : j < st.documents.length
    · have hre : (st.documents ++ (chunk_text doc 500 50).enum.map
            (fun p => mkChunkRecord (st.documents.length + p.1) src p.2)).getD j []
          = st.documents.getD j [] := by
        simp [List.getD_eq_getElem?_getD, List.getElem?_append_left hlt]
      rw [hre]
      exact h.2 j (List.mem_range.mpr hlt)
    · push_neg at hlt
      have hi : j - st.documents.length < ((chunk_text doc 500 50).enum).length := by
        simp only [List.enum_length]
        omega
      simp only [List.getD_eq_getElem?_getD, List.getElem?_append_right hlt,
        List.getElem?_map, List.getElem?_eq_getElem hi, List.getElem_enum,
        Option.map_some', Option.getD_some, lookup_id_mkChunkRecord,
        Option.some.injEq, FieldVal.nat.injEq]
      omega

theorem aligned_foldl (emb : Embedder) :
    ∀ (calls : List (List Char × List Char)) (st : StoreState), aligned st →
      aligned (calls.foldl (fun s c => (ingest emb true s c.1 c.2).2) st) := by
  intro calls
  induction calls with
  | nil => intro st h; exact h
  | cons c cs ih =>
    intro st h
    exact ih _ (aligned_ingest emb true st c.1 c.2 h)

/-- Claim C1: for every embedding model and every sequence of ingest calls
starting from an empty store, after each ingest the number of vectors in
the index equals the number of records in the metadata log, and every
record's id field equals its offset in that log (hence its offset in the
index).  The theorem quantifies over all call sequences, so it holds after
every prefix; failed ingest calls leave the state unchanged, so it covers
in particular every sequence of successful calls. -/
theorem claim_C1_positional_alignment (emb : Embedder)
    (calls : List (List Char × List Char)) :
    aligned (ingestAll emb calls) :=
  aligned_foldl emb calls emptyStore aligned_emptyStore

/-- Claim C3, counterexample: a successful ingest of a one-chunk document
into a fresh store appends a record with no indexed_at field at all. -/
theorem claim_C3_counterexample :
    (ingest witEmb true emptyStore "hello".data "src".data).1
      = Except.ok (IngestResult.success 1 1) ∧
    List.lookup "indexed_at"
      (((ingest witEmb true emptyStore "hello".data "src".data).2).documents.getD 0 [])
      = none :=
  ⟨by decide, by decide⟩

/-- Claim C3, amended: every chunk record appended by a successful ingest
contains its positional id, source and text, and no indexed_at field is
stored. -/
theorem claim_C3_no_timestamp (emb : Embedder) (saveOk : Bool) (st : StoreState)
    (doc src : List Char) :
    ((ingest emb saveOk st doc src).2).documents
      = st.documents ++ (chunk_text doc 500 50).enum.map
          (fun p => mkChunkRecord (st.documents.length + p.1) src p.2) ∧
    (((ingest emb saveOk st doc src).2).documents.drop st.documents.length).all
      (fun r => (List.lookup "indexed_at" r).isNone) = true := by
  obtain ⟨-, hdocs⟩ := ingest_snd emb saveOk st doc src
  refine ⟨hdocs, ?_⟩
  rw [hdocs, List.drop_left, List.all_eq_true]
  intro r hr
  rcases List.mem_map.mp hr with ⟨p, -, rfl⟩
  simp

/-- Claim C7: when chunking yields zero chunks, ingest returns a structured
failure carrying an error message and the entire store state (in-memory
index, metadata log and both persisted files) is exactly as before. -/
theorem claim_C7_empty_input (emb : Embedder) (saveOk : Bool) (st : StoreState)
    (doc src : List Char) (h : chunk_text doc 500 50 = []) :
    ingest emb saveOk st doc src
      = (Except.ok (IngestResult.failure "No chunks created from document"), st) := by
  simp [ingest, h]

theorem claim_C7_witness :
    chunk_text "   ".data 500 50 = [] ∧
    ingest witEmb true witStore "   ".data "s".data
      = (Except.ok (IngestResult.failure "No chunks created from document"), witStore) :=
  ⟨by decide, claim_C7_empty_input witEmb true witStore "   ".data "s".data (by decide)⟩

/-- Claim C10: when the save step fails after the in-memory appends of an
ingest, the exception propagates unswallowed (the call yields an error,
not a result dict) and the in-memory index and metadata log retain the
newly appended vectors and records; the persisted files are unchanged. -/
theorem claim_C10_save_failure (emb : Embedder) (st : StoreState) (doc src : List Char)
    (h : chunk_text doc 500 50 ≠ []) :
    ingest emb false st doc src
      = (Except.error "save failed",
          { index := st.index ++ (chunk_text doc 500 50).map emb,
            documents := st.documents ++ (chunk_text doc 500 50).enum.map
              (fun p => mkChunkRecord (st.documents.length + p.1) src p.2),
            savedIndex := st.savedIndex,
            savedDocuments := st.savedDocuments }) := by
  simp [ingest, h]

theorem claim_C10_witness :
    chunk_text "hello".data 500 50 ≠ [] ∧
    ingest witEmb false emptyStore "hello".data "s".data
      = (Except.error "save failed",
          { index := emptyStore.index ++ (chunk_text "hello".data 500 50).map witEmb,
            documents := emptyStore.documents ++ (chunk_text "hello".data 500 50).enum.map
              (fun p => mkChunkRecord (emptyStore.documents.length + p.1) "s".data p.2),
            savedIndex := emptyStore.savedIndex,
            savedDocuments := emptyStore.savedDocuments }) :=
  ⟨by decide, claim_C10_save_failure witEmb emptyStore "hello".data "s".data (by decide)⟩

/-- Claim C4: constructing a store over a persisted index whose stored
dimension differs from the dimension derived from the configured embedding
model fails with the configuration error whose message names both
dimensions, and no store is ever produced in that configuration. -/
theorem claim_C4_dimension_mismatch (emb : Embedder) (d : ℕ) (vecs : List Vec)
    (pd : Option (List Record)) (hne : d ≠ (emb "test".data).length) :
    initStore emb (some ⟨d, vecs⟩) pd
      = Except.error (dimMismatchMsg d (emb "test".data).length) ∧
    (∀ st : StoreState, initStore emb (some ⟨d, vecs⟩) pd ≠ Except.ok st) ∧
    (∃ pre mid post, dimMismatchMsg d (emb "test".data).length
      = pre ++ Nat.toDigits 10 d ++ mid
          ++ Nat.toDigits 10 (emb "test".data).length ++ post) := by
  refine ⟨by simp [initStore, hne], ?_, ?_⟩
  · intro st
    simp [initStore, hne]
  · exact ⟨"Existing index dimension (".data,
      ") does not match embedding model dimension (".data,
      "). Please use a different index directory or the same embedding model.".data, rfl⟩

set_option maxRecDepth 8000 in
theorem claim_C4_witness :
    (384 : ℕ) ≠ (emb768 "test".data).length ∧
    initStore emb768 (some ⟨384, []⟩) none
      = Except.error (dimMismatchMsg 384 (emb768 "test".data).length) :=
  ⟨by decide, (claim_C4_dimension_mismatch emb768 384 [] none (by decide)).1⟩

/-- Claim C5: for every document and every chunk size S and overlap O with
O < S, chunk_text tokenizes the text on whitespace and returns exactly the
windows words[i .. i+S) for i = 0, S-O, 2(S-O), ..., each rejoined with
single spaces, in order of increasing i (chunkWindows states precisely
that window sequence). -/
theorem claim_C5_chunker_algorithm (text : List Char) (S O : ℕ) (hOS : O < S) :
    chunk_text text S O = chunkWindows text S O :=
  chunk_text_eq_chunkWindows text S O hOS

theorem claim_C5_witness :
    (1 : ℕ) < 3 ∧ chunk_text "a b c d e".data 3 1 = chunkWindows "a b c d e".data 3 1 :=
  ⟨by decide, claim_C5_chunker_algorithm "a b c d e".data 3 1 (by decide)⟩

/-- Claim C6: with O < S, a document containing at least one
non-whitespace character yields a non-empty chunk sequence whose every
chunk is non-empty and not whitespace-only, and a document with no
non-whitespace character yields the empty sequence. -/
theorem claim_C6_chunker_nonempty (text : List Char) (S O : ℕ) (hOS : O < S) :
    ((∃ c ∈ text, pyIsSpace c = false) →
      chunk_text text S O ≠ [] ∧
      ∀ ch ∈ chunk_text text S O, ch ≠ [] ∧ ∃ c ∈ ch, pyIsSpace c = false) ∧
    ((∀ c ∈ text, pyIsSpace c = true) → chunk_text text S O = []) := by
  have hstep : 0 < S - O := by omega
  have hS : 0 < S := by omega
  constructor
  · rintro ⟨c0, hc0, hc0s⟩
    have hw : splitWS text ≠ [] := by
      intro hnil
      have h1 := (splitWS_eq_nil_iff text).mp hnil c0 hc0
      rw [hc0s] at h1
      exact Bool.noConfusion h1
    have hn : 0 < (splitWS text).length := List.length_pos.mpr hw
    have hq : 0 < ceilDiv (splitWS text).length (S - O) :=
      (Nat.le_div_iff_mul_le hstep).mpr (by omega)
    rw [chunk_text_eq_chunkWindows text S O hOS]
    constructor
    · simp only [chunkWindows]
      intro hmap
      have h0 := List.range_eq_nil.mp (List.map_eq_nil_iff.mp hmap)
      omega
    · intro ch hch
      simp only [chunkWindows] at hch
      rcases List.mem_map.mp hch with ⟨k, hk, rfl⟩
      have hkm : k * (S - O) < (splitWS text).length :=
        mul_lt_of_lt_ceilDiv hstep (List.mem_range.mp hk)
      obtain ⟨t, hwin, hmem⟩ := window_cons hkm hS
      rw [hwin]
      obtain ⟨r, hjoin⟩ := joinWords_cons _ t
      rw [hjoin]
      obtain ⟨hwnil, hwns⟩ := mem_splitWS hmem
      refine ⟨by simp [hwnil], ?_⟩
      obtain ⟨c, hc⟩ := List.exists_mem_of_ne_nil _ hwnil
      exact ⟨c, List.mem_append_left _ hc, hwns c hc⟩
  · intro hall
    have hw : splitWS text = [] := (splitWS_eq_nil_iff text).mpr hall
    simp [chunk_text, hw, rangeStep, rangeStepAux]

theorem claim_C6_witness :
    (1 : ℕ) < 3 ∧
    (((∃ c ∈ "hi you".data, pyIsSpace c = false) →
      chunk_text "hi you".data 3 1 ≠ [] ∧
      ∀ ch ∈ chunk_text "hi you".data 3 1, ch ≠ [] ∧ ∃ c ∈ ch, pyIsSpace c = false) ∧
    ((∀ c ∈ "hi you".data, pyIsSpace c = true) → chunk_text "hi you".data 3 1 = [])) :=
  ⟨by decide, claim_C6_chunker_nonempty "hi you".data 3 1 (by decide)⟩

theorem fst_lt_of_mem_enumFrom {α : Type} :
    ∀ (l : List α) (n : ℕ) (p : ℕ × α), p ∈ l.enumFrom n → p.1 < n + l.length := by
  intro l
  induction l with
  | nil =>
    intro n p hp
    simp [List.enumFrom] at hp
  | cons a as ih =>
    intro n p hp
    rw [List.enumFrom_cons, List.mem_cons] at hp
    rcases hp with h | h
    · subst h
      simp only [List.length_cons]
      omega
    · have h2 := ih (n + 1) p h
      simp only [List.length_cons]
      omega

theorem snd_lt_of_mem_searchIndex {vecs : List Vec} {qv : Vec} {k : ℕ} {p : ℚ × ℕ}
    (hp : p ∈ searchIndex vecs qv k) : p.2 < vecs.length := by
  have h1 : p ∈ List.insertionSort distLE
      ((vecs.enum).map (fun q => (l2sq qv q.2, q.1))) := List.mem_of_mem_take hp
  rw [List.mem_insertionSort] at h1
  rcases List.mem_map.mp h1 with ⟨q, hq, rfl⟩
  have h3 := fst_lt_of_mem_enumFrom vecs 0 q (by simpa [List.enum] using hq)
  simpa using h3

theorem searchIndex_length (vecs : List Vec) (qv : Vec) (k : ℕ) :
    (searchIndex vecs qv k).length = min k vecs.length := by
  simp [searchIndex, List.length_insertionSort]

/-- Claim C8: on a store satisfying the alignment invariant whose index
holds at least one vector, query returns exactly min(top_k, index size)
results. -/
theorem claim_C8_top_k_clamping (emb : Embedder) (st : StoreState) (q : List Char)
    (top_k : ℕ) (hal : aligned st) (hn : 0 < st.index.length) :
    ((query emb st q top_k).1).length = min top_k st.index.length := by
  have h0 : ¬st.index.length = 0 := by omega
  simp only [query, h0, if_false]
  rw [List.length_map, List.filter_eq_self.mpr ?all]
  · rw [searchIndex_length]
    omega
  case all =>
    intro p hp
    have h2 := snd_lt_of_mem_searchIndex hp
    have h3 := hal.1
    simp only [decide_eq_true_eq]
    omega

theorem claim_C8_witness :
    aligned witStore ∧ 0 < witStore.index.length ∧
    ((query witEmb witStore "q".data 100).1).length = min 100 witStore.index.length :=
  ⟨by decide, by decide,
    claim_C8_top_k_clamping witEmb witStore "q".data 100 (by decide) (by decide)⟩

/-- Claim C9: on a store whose index holds zero vectors, query returns the
empty sequence with zero embedding-model invocations, and the outcome is
the same for every embedder. -/
theorem claim_C9_empty_index_query (emb : Embedder) (st : StoreState) (q : List Char)
    (top_k : ℕ) (h : st.index.length = 0) :
    query emb st q top_k = ([], 0) ∧
    ∀ e1 e2 : Embedder, query e1 st q top_k = query e2 st q top_k := by
  refine ⟨by simp [query, h], ?_⟩
  intro e1 e2
  simp [query, h]

theorem claim_C9_witness :
    emptyStore.index.length = 0 ∧
    query witEmb emptyStore "anything".data 5 = ([], 0) :=
  ⟨by decide, (claim_C9_empty_index_query witEmb emptyStore "anything".data 5 (by decide)).1⟩

theorem rerank_none_of_mem_query (emb : Embedder) (st : StoreState) (q : List Char)
    (top_k : ℕ) : ∀ r ∈ (query emb st q top_k).1, r.rerank_score = none := by
  intro r hr
  by_cases h : st.index.length = 0
  · simp [query, h] at hr
  · simp only [query, h, if_false] at hr
    rcases List.mem_map.mp hr with ⟨p, -, rfl⟩
    rfl

theorem sorted_dist_query (emb : Embedder) (st : StoreState) (q : List Char)
    (top_k : ℕ) : List.Sorted resultDistLE (query emb st q top_k).1 := by
  by_cases h : st.index.length = 0
  · simp [query, h]
  · simp only [query, h, if_false]
    have h1 : List.Sorted distLE
        (searchIndex st.index (emb q) (min top_k st.index.length)) :=
      List.Pairwise.sublist (List.take_sublist _ _) (List.sorted_insertionSort distLE _)
    rw [List.Sorted, List.pairwise_map]
    exact List.Pairwise.sublist (List.filter_sublist _) h1

/-- Claim C2: with a reranker configured, every result of a query on a
non-empty index carries a rerank_score, the result sequence is sorted by
rerank_score descending, and stripping the attached scores gives exactly
(a permutation of) the results the same query retrieves with no reranker
configured — the retrieved candidate set is unchanged; with no reranker,
results are sorted ascending by distance and no result carries a
rerank_score. -/
theorem claim_C2_reranking (emb : Embedder) (rr : Reranker) (st : StoreState)
    (q : List Char) (top_k : ℕ) (_hn : 0 < st.index.length) :
    (∀ r ∈ queryR emb (some rr) st q top_k, r.rerank_score.isSome = true) ∧
    List.Sorted rerankGE (queryR emb (some rr) st q top_k) ∧
    List.Perm
      ((queryR emb (some rr) st q top_k).map
        (fun r => ({ r with rerank_score := none } : QueryResult)))
      (queryR emb none st q top_k) ∧
    List.Sorted resultDistLE (queryR emb none st q top_k) ∧
    (∀ r ∈ queryR emb none st q top_k, r.rerank_score = none) := by
  refine ⟨?_, ?_, ?_, ?_, ?_⟩
  · intro r hr
    simp only [queryR] at hr
    rw [List.mem_insertionSort] at hr
    rcases List.mem_map.mp hr with ⟨r0, -, rfl⟩
    rfl
  · simpa [queryR] using List.sorted_insertionSort rerankGE
      (((query emb st q top_k).1).map (fun r => ({ r with rerank_score := some (rr q r.text) } : QueryResult)))
  · have hperm := (List.perm_insertionSort rerankGE
      (((query emb st q top_k).1).map
        (fun r => ({ r with rerank_score := some (rr q r.text) } : QueryResult)))).map
          (fun r => ({ r with rerank_score := none } : QueryResult))
    have h3 : (((query emb st q top_k).1).map
          (fun r => ({ r with rerank_score := some (rr q r.text) } : QueryResult))).map
          (fun r => ({ r with rerank_score := none } : QueryResult)) = (query emb st q top_k).1 := by
      rw [List.map_map]
      conv_rhs => rw [← List.map_id ((query emb st q top_k).1)]
      apply List.map_congr_left
      intro a ha
      have hnone := rerank_none_of_mem_query emb st q top_k a ha
      cases a with
      | mk t s d rs =>
        have hrs : rs = none := hnone
        simp [Function.comp, hrs]
    rw [h3] at hperm
    simpa [queryR] using hperm
  · simpa [queryR] using sorted_dist_query emb st q top_k
  · intro r hr
    simp only [queryR] at hr
    exact rerank_none_of_mem_query emb st q top_k r hr

theorem claim_C2_witness :
    0 < witStore.index.length ∧
    ((∀ r ∈ queryR witEmb (some witRer) witStore "q".data 5, r.rerank_score.isSome = true) ∧
     List.Sorted rerankGE (queryR witEmb (some witRer) witStore "q".data 5) ∧
     List.Perm
       ((queryR witEmb (some witRer) witStore "q".data 5).map
         (fun r => ({ r with rerank_score := none } : QueryResult)))
       (queryR witEmb none witStore "q".data 5) ∧
     List.Sorted resultDistLE (queryR witEmb none witStore "q".data 5) ∧
     (∀ r ∈ queryR witEmb none witStore "q".data 5, r.rerank_score = none)) :=
  ⟨by decide, claim_C2_reranking witEmb witRer witStore "q".data 5 (by decide)⟩

end LocalFaiss
